import Mathlib

/-!
# Verification of a ternary max-heap priority queue

Shallow embedding of `src/lib.rs` (`TernaryHeap<T>`): a max-heap with
branching factor 3 stored in a contiguous array (`Vec<T>`, modelled as
`List α`).  The element type `T : Ord` is modelled by a `LinearOrder`;
`usize` indices by `Nat`.  Array indexing `data[i]` (which in Rust panics
out of bounds) is modelled with a default value (`List.getD`), which is
sound because every theorem below carries the in-bounds facts under which
the two semantics agree.

The loops `swim` and `sink_until` are compiled to structurally recursive
functions on an explicit iteration bound (`fuel`); the bound chosen in the
wrappers (`pos` for `swim`, `e` for `sinkUntil`) is provably sufficient,
and fuel-irrelevance lemmas below show the wrappers satisfy exactly the
loop equations of the source, so no behaviour is lost.  This keeps every
definition kernel-reducible on concrete inputs.

`From<Vec<T>>` computes `heap.len() - 1` on a `usize` with no guard; for
an empty vector this subtraction underflows (a panic under Rust's checked
arithmetic).  `fromVec` therefore returns an `Option`, `none` modelling
that fault.
-/

set_option linter.unusedSectionVars false

namespace TernaryHeap

variable {α : Type} [LinearOrder α] [Inhabited α]

/-- Rust `data[i]`: list indexing with a default, standing for Rust's
panicking index. All theorems keep indices in bounds. -/
def geti (l : List α) (i : Nat) : α := l.getD i default

/-- Rust `self.data.swap(i, j)` (`Vec::swap`). -/
def swapIdx (l : List α) (i j : Nat) : List α :=
  (l.set i (geti l j)).set j (geti l i)

/-- Rust `TernaryHeap::parent`: `if child == 0 { 0 } else { (child - 1) / 3 }`. -/
def parentIdx (child : Nat) : Nat :=
  if child = 0 then 0 else (child - 1) / 3

/-- Rust `TernaryHeap::children`: the index range `first_child..last_child`
with `first_child = parent * 3 + 1`, `last_child = min (first_child + 3) end`,
or `None` when `first_child >= end`. -/
def childrenIdx (parent e : Nat) : Option (List Nat) :=
  if parent * 3 + 1 ≥ e then none
  else some (List.range' (parent * 3 + 1) (min (parent * 3 + 1 + 3) e - (parent * 3 + 1)))

/-- One step of `Iterator::max_by_key` (`cmp::max_by` keeps the later
element on ties, so the fold prefers the new index on equal keys). -/
def maxStep (l : List α) (acc : Option Nat) (i : Nat) : Option Nat :=
  match acc with
  | none => some i
  | some j => some (if geti l j ≤ geti l i then i else j)

/-- Rust `TernaryHeap::best_child`: index of the maximal value among the
children (last maximal index on ties, as Rust's `max_by_key`). -/
def bestChild (l : List α) (parent e : Nat) : Option Nat :=
  match childrenIdx parent e with
  | some js => js.foldl (maxStep l) none
  | none => none

/-- The `swim` loop, structurally recursive on an iteration bound.
Each iteration moves to `parentIdx pos < pos`, so `fuel = pos` iterations
always suffice (see `swimFuel_congr`). -/
def swimFuel (l : List α) (pos fuel : Nat) : List α :=
  match fuel with
  | 0 => l
  | fuel + 1 =>
    if pos = 0 then l
    else if geti l pos ≤ geti l (parentIdx pos) then l
    else swimFuel (swapIdx l pos (parentIdx pos)) (parentIdx pos) fuel

/-- Rust `TernaryHeap::swim`. -/
def swim (l : List α) (pos : Nat) : List α := swimFuel l pos pos

/-- The `sink_until` loop, structurally recursive on an iteration bound.
Each iteration moves to a child `> pos` and `< e`, so `fuel = e`
iterations always suffice (see `sinkFuel_congr`). -/
def sinkFuel (l : List α) (pos e fuel : Nat) : List α :=
  match fuel with
  | 0 => l
  | fuel + 1 =>
    match bestChild l pos e with
    | none => l
    | some child =>
      if geti l child ≤ geti l pos then l
      else sinkFuel (swapIdx l pos child) child e fuel

/-- Rust `TernaryHeap::sink_until`. -/
def sinkUntil (l : List α) (pos e : Nat) : List α := sinkFuel l pos e e

/-- Rust `TernaryHeap::sink`: `sink_until(pos, data.len())`. -/
def sinkH (l : List α) (pos : Nat) : List α := sinkUntil l pos l.length

/-- Rust `TernaryHeap::new` / `with_capacity` (capacity is a non-observable
performance hint): the empty heap. -/
def newHeap : List α := []

/-- Rust `TernaryHeap::len`. -/
def lenH (l : List α) : Nat := l.length

/-- Rust `TernaryHeap::is_empty`. -/
def isEmptyH (l : List α) : Bool := l.isEmpty

/-- Rust `TernaryHeap::push`: `data.push(item); swim(old_len)`. -/
def pushHeap (l : List α) (item : α) : List α :=
  swim (l ++ [item]) l.length

/-- Rust `TernaryHeap::pop`: if non-empty, `swap(0, len-1)` then
`sink_until(0, len-1)`; finally `Vec::pop` (returned value, new state). -/
def popHeap (l : List α) : Option α × List α :=
  let l2 :=
    if l.isEmpty then l
    else sinkUntil (swapIdx l 0 (l.length - 1)) 0 (l.length - 1)
  (l2.getLast?, l2.dropLast)

/-- The loop `for parent in (0..=k).rev() { heap.sink(parent) }`:
sinks positions `k, k-1, …, 0` in that order. -/
def sinkRange (l : List α) (k : Nat) : List α :=
  match k with
  | 0 => sinkH l 0
  | k + 1 => sinkRange (sinkH l (k + 1)) k

/-- Rust `From<Vec<T>>`: `last_parent = parent(len - 1)`, then sink
`last_parent, …, 0`.  `len - 1` is an unguarded `usize` subtraction:
on an empty vector it underflows, modelled by `none` (the fault). -/
def fromVec (l : List α) : Option (List α) :=
  if l.length = 0 then none
  else some (sinkRange l (parentIdx (l.length - 1)))

/-- Rust `From<TernaryHeap<T>> for Vec<T>`: hands back the backing array as-is. -/
def toVec (l : List α) : List α := l

/-- Repeatedly `pop` until absence, collecting the returned values.
Each successful pop shortens the heap by one, so `l.length` pops drain
it completely. -/
def drainFuel (l : List α) (fuel : Nat) : List α :=
  match fuel with
  | 0 => []
  | fuel + 1 =>
    match popHeap l with
    | (none, _) => []
    | (some x, l2) => x :: drainFuel l2 fuel

/-- Drain the heap by repeated `pop` until it signals absence. -/
def drain (l : List α) : List α := drainFuel l l.length

/-- Position `c` is one of the three child positions of `q`. -/
def isChildOf (q c : Nat) : Prop := c = 3 * q + 1 ∨ c = 3 * q + 2 ∨ c = 3 * q + 3

instance (q c : Nat) : Decidable (isChildOf q c) := by
  unfold isChildOf; infer_instance

/-- The max-heap invariant on the prefix `[0, n)`, in parent form:
every non-root position is `≤` its parent. -/
def heapUpTo (l : List α) (n : Nat) : Prop :=
  ∀ c, c < n → 0 < c → geti l c ≤ geti l (parentIdx c)

instance (l : List α) (n : Nat) : Decidable (heapUpTo l n) := by
  unfold heapUpTo; infer_instance

/-- The max-heap invariant of the whole heap. -/
def heapInv (l : List α) : Prop := heapUpTo l l.length

instance (l : List α) : Decidable (heapInv l) := by
  unfold heapInv; infer_instance

/-- Heap states reachable by the public API: `new`/`with_capacity`,
successful bulk construction, `push`, and `pop`. -/
inductive Reachable : List α → Prop where
  | new : Reachable []
  | fromVec (v h : List α) : fromVec v = some h → Reachable h
  | push (l : List α) (a : α) : Reachable l → Reachable (pushHeap l a)
  | pop (l : List α) : Reachable l → Reachable (popHeap l).2

/-! ### Basic facts about indexing and swapping -/

theorem geti_eq_getElem (l : List α) {i : Nat} (h : i < l.length) :
    geti l i = l[i] :=
  List.getD_eq_getElem l default h

theorem length_swapIdx (l : List α) (i j : Nat) :
    (swapIdx l i j).length = l.length := by
  simp [swapIdx]

theorem getElem?_swapIdx (l : List α) (i j k : Nat)
    (hi : i < l.length) (hj : j < l.length) :
    (swapIdx l i j)[k]? =
      if k = j then some (geti l i)
      else if k = i then some (geti l j) else l[k]? := by
  unfold swapIdx
  by_cases hkj : k = j
  · subst hkj
    rw [List.getElem?_set_self (by simpa using hj), if_pos rfl]
  · rw [List.getElem?_set_ne (Ne.symm hkj), if_neg hkj]
    by_cases hki : k = i
    · subst hki
      rw [List.getElem?_set_self hi, if_pos rfl]
    · rw [List.getElem?_set_ne (Ne.symm hki), if_neg hki]

theorem geti_swapIdx_fst (l : List α) {i j : Nat}
    (hi : i < l.length) (hj : j < l.length) :
    geti (swapIdx l i j) j = geti l i := by
  rw [geti, List.getD_eq_getElem?_getD, getElem?_swapIdx l i j j hi hj, if_pos rfl]
  rfl

theorem geti_swapIdx_snd (l : List α) {i j : Nat}
    (hi : i < l.length) (hj : j < l.length) :
    geti (swapIdx l i j) i = geti l j := by
  rw [geti, List.getD_eq_getElem?_getD, getElem?_swapIdx l i j i hi hj]
  by_cases hij : i = j
  · rw [if_pos hij, hij]
    rfl
  · rw [if_neg hij, if_pos rfl]
    rfl

theorem geti_swapIdx_ne (l : List α) {i j k : Nat}
    (hi : i < l.length) (hj : j < l.length) (hki : k ≠ i) (hkj : k ≠ j) :
    geti (swapIdx l i j) k = geti l k := by
  rw [geti, List.getD_eq_getElem?_getD, getElem?_swapIdx l i j k hi hj,
    if_neg hkj, if_neg hki, geti, List.getD_eq_getElem?_getD]

theorem set_geti_self (l : List α) (i : Nat) : l.set i (geti l i) = l := by
  apply List.ext_getElem?
  intro n
  rw [List.getElem?_set]
  by_cases hni : i = n
  · subst hni
    by_cases hlt : i < l.length
    · rw [if_pos rfl, if_pos hlt, geti_eq_getElem l hlt, List.getElem?_eq_getElem hlt]
    · rw [if_pos rfl, if_neg hlt, List.getElem?_eq_none (by omega)]
  · rw [if_neg hni]

theorem swapIdx_perm (l : List α) {i j : Nat}
    (hi : i < l.length) (hj : j < l.length) :
    (swapIdx l i j).Perm l := by
  by_cases hij : i = j
  · subst hij
    rw [swapIdx, set_geti_self, set_geti_self]
  · rw [List.perm_iff_count]
    intro a
    have hgj : geti l j = l[j] := geti_eq_getElem l hj
    have hgi : geti l i = l[i] := geti_eq_getElem l hi
    have hmem_i : l[i] ∈ l := List.getElem_mem hi
    have hcount_i : (if l[i] = a then 1 else 0) ≤ List.count a l := by
      split
      · next h => exact List.count_pos_iff.mpr (h ▸ hmem_i)
      · exact Nat.zero_le _
    have hj' : j < (l.set i (geti l j)).length := by simpa using hj
    have h3 : (l.set i (geti l j))[j] = l[j] := List.getElem_set_ne hij hj'
    have h1 : List.count a (l.set i (geti l j)) =
        List.count a l - (if l[i] = a then 1 else 0)
          + (if l[j] = a then 1 else 0) := by
      rw [List.count_set _ _ _ _ hi]
      simp only [beq_iff_eq, hgj]
    have h2 : List.count a (swapIdx l i j) =
        List.count a (l.set i (geti l j)) - (if l[j] = a then 1 else 0)
          + (if l[i] = a then 1 else 0) := by
      rw [swapIdx, List.count_set _ _ _ _ hj']
      simp only [beq_iff_eq, h3, hgi]
    rw [h2, h1]
    by_cases hia : l[i] = a
    · rw [if_pos hia] at hcount_i ⊢
      by_cases hja : l[j] = a
      · rw [if_pos hja]
        omega
      · rw [if_neg hja]
        omega
    · rw [if_neg hia]
      by_cases hja : l[j] = a
      · rw [if_pos hja]
        omega
      · rw [if_neg hja]
        omega

/-! ### The parent index decreases, children indices increase -/

theorem parentIdx_lt {pos : Nat} (h : 0 < pos) : parentIdx pos < pos := by
  unfold parentIdx
  rw [if_neg (by omega)]
  omega

theorem parentIdx_zero : parentIdx 0 = 0 := rfl

theorem isChildOf_parentIdx {q c : Nat} (h : isChildOf q c) :
    parentIdx c = q ∧ q < c := by
  rcases h with h | h | h <;> subst h <;>
    refine ⟨?_, by omega⟩ <;> · unfold parentIdx; rw [if_neg (by omega)]; omega

theorem parentIdx_isChildOf {c : Nat} (h : 0 < c) : isChildOf (parentIdx c) c := by
  unfold parentIdx isChildOf
  rw [if_neg (by omega)]
  omega

/-! ### Characterisation of `childrenIdx` and `bestChild` -/

theorem childrenIdx_eq_none {p e : Nat} : childrenIdx p e = none ↔ e ≤ 3 * p + 1 := by
  unfold childrenIdx
  constructor
  · intro hnone
    by_contra hlt
    rw [if_neg (by omega)] at hnone
    exact absurd hnone (by simp)
  · intro hle
    rw [if_pos (by omega)]

theorem mem_childrenIdx {p e c : Nat} {js : List Nat}
    (h : childrenIdx p e = some js) : c ∈ js ↔ isChildOf p c ∧ c < e := by
  unfold childrenIdx at h
  by_cases hge : p * 3 + 1 ≥ e
  · rw [if_pos hge] at h
    exact absurd h (by simp)
  · rw [if_neg hge] at h
    have hjs : js = List.range' (p * 3 + 1) (min (p * 3 + 1 + 3) e - (p * 3 + 1)) :=
      (Option.some.inj h).symm
    subst hjs
    rw [List.mem_range']
    unfold isChildOf
    constructor
    · rintro ⟨i, hi, rfl⟩
      omega
    · rintro ⟨hc, hce⟩
      exact ⟨c - (p * 3 + 1), by omega, by omega⟩

theorem maxStep_spec (l : List α) (acc : Option Nat) (x : Nat) :
    ∃ v, maxStep l acc x = some v ∧ geti l x ≤ geti l v ∧
      (∀ j, acc = some j → geti l j ≤ geti l v) ∧ (v = x ∨ acc = some v) := by
  match acc with
  | none =>
    refine ⟨x, rfl, le_refl _, ?_, Or.inl rfl⟩
    intro j h
    exact nomatch h
  | some j =>
    by_cases h : geti l j ≤ geti l x
    · refine ⟨x, ?_, le_refl _, ?_, Or.inl rfl⟩
      · show some (if geti l j ≤ geti l x then x else j) = some x
        rw [if_pos h]
      · rintro j' hj'
        cases Option.some.inj hj'
        exact h
    · refine ⟨j, ?_, le_of_not_le h, ?_, Or.inr rfl⟩
      · show some (if geti l j ≤ geti l x then x else j) = some j
        rw [if_neg h]
      · rintro j' hj'
        cases Option.some.inj hj'
        exact le_refl _

theorem foldl_maxStep_spec (l : List α) (js : List Nat) :
    ∀ acc : Option Nat,
      (js.foldl (maxStep l) acc = none → js = [] ∧ acc = none) ∧
      (∀ m, js.foldl (maxStep l) acc = some m →
        (m ∈ js ∨ acc = some m) ∧ (∀ x ∈ js, geti l x ≤ geti l m) ∧
          (∀ j, acc = some j → geti l j ≤ geti l m)) := by
  induction js with
  | nil =>
    intro acc
    refine ⟨fun h => ⟨rfl, h⟩, fun m hm => ⟨Or.inr hm, by simp, ?_⟩⟩
    intro j hj
    rw [hj] at hm
    cases Option.some.inj hm
    exact le_refl _
  | cons x rest ih =>
    intro acc
    obtain ⟨v, hv, hxv, hjv, hvx⟩ := maxStep_spec l acc x
    rw [List.foldl_cons, hv]
    constructor
    · intro hnone
      exact absurd ((ih (some v)).1 hnone).2 (by simp)
    · intro m hm
      obtain ⟨hmem, hallrest, hacc⟩ := (ih (some v)).2 m hm
      have hvm : geti l v ≤ geti l m := hacc v rfl
      refine ⟨?_, ?_, ?_⟩
      · rcases hmem with hmem | hmem
        · exact Or.inl (List.mem_cons_of_mem x hmem)
        · cases Option.some.inj hmem
          rcases hvx with rfl | hvacc
          · exact Or.inl (List.mem_cons_self _ _)
          · exact Or.inr hvacc
      · intro y hy
        rcases List.mem_cons.mp hy with rfl | hy
        · exact le_trans hxv hvm
        · exact hallrest y hy
      · intro j hj
        exact le_trans (hjv j hj) hvm

theorem bestChild_eq_none {l : List α} {p e : Nat} :
    bestChild l p e = none ↔ e ≤ 3 * p + 1 := by
  unfold bestChild
  constructor
  · intro h
    match hc : childrenIdx p e with
    | none => exact childrenIdx_eq_none.mp hc
    | some js =>
      rw [hc] at h
      obtain ⟨hjs, _⟩ := (foldl_maxStep_spec l js none).1 h
      subst hjs
      by_contra hlt
      have hfst : (3 * p + 1) ∈ ([] : List Nat) :=
        (mem_childrenIdx (c := 3 * p + 1) hc).mpr ⟨Or.inl rfl, by omega⟩
      exact absurd hfst (by simp)
  · intro h
    rw [childrenIdx_eq_none.mpr (by omega)]

theorem bestChild_some {l : List α} {p e c : Nat}
    (h : bestChild l p e = some c) :
    (isChildOf p c ∧ c < e) ∧
      ∀ c', isChildOf p c' → c' < e → geti l c' ≤ geti l c := by
  unfold bestChild at h
  match hc : childrenIdx p e with
  | none => rw [hc] at h; exact absurd h (by simp)
  | some js =>
    rw [hc] at h
    obtain ⟨hmem, hall, _⟩ := (foldl_maxStep_spec l js none).2 c h
    have hmem' : c ∈ js := by
      rcases hmem with hmem | hmem
      · exact hmem
      · exact absurd hmem (by simp)
    refine ⟨(mem_childrenIdx hc).mp hmem', ?_⟩
    intro c' hc' hce'
    exact hall c' ((mem_childrenIdx hc).mpr ⟨hc', hce'⟩)

theorem bestChild_lt {l : List α} {p e c : Nat}
    (h : bestChild l p e = some c) : p < c ∧ c < e := by
  obtain ⟨⟨hch, hce⟩, _⟩ := bestChild_some h
  rcases hch with h' | h' | h' <;> omega

/-! ### Fuel irrelevance: the chosen iteration bounds always suffice -/

theorem swimFuel_congr : ∀ (f1 f2 pos : Nat) (l : List α), pos ≤ f1 → pos ≤ f2 →
    swimFuel l pos f1 = swimFuel l pos f2 := by
  intro f1
  induction f1 with
  | zero =>
    intro f2 pos l h1 h2
    obtain rfl : pos = 0 := by omega
    cases f2 with
    | zero => rfl
    | succ f2 => simp [swimFuel]
  | succ f1 ih =>
    intro f2 pos l h1 h2
    by_cases hp : pos = 0
    · subst hp
      cases f2 with
      | zero => simp [swimFuel]
      | succ f2 => simp [swimFuel]
    · cases f2 with
      | zero => omega
      | succ f2 =>
        simp only [swimFuel, if_neg hp]
        by_cases hle : geti l pos ≤ geti l (parentIdx pos)
        · rw [if_pos hle, if_pos hle]
        · rw [if_neg hle, if_neg hle]
          have hplt := parentIdx_lt (show 0 < pos by omega)
          exact ih f2 (parentIdx pos) _ (by omega) (by omega)

/-- Function `swim` satisfies exactly the loop equation of the source's `while`. -/
theorem swim_eq_loop (l : List α) (pos : Nat) :
    swim l pos =
      if pos = 0 then l
      else if geti l pos ≤ geti l (parentIdx pos) then l
      else swim (swapIdx l pos (parentIdx pos)) (parentIdx pos) := by
  by_cases hp : pos = 0
  · subst hp
    rw [if_pos rfl]
    rfl
  · rw [if_neg hp]
    unfold swim
    obtain ⟨p, rfl⟩ : ∃ p, pos = p + 1 := ⟨pos - 1, by omega⟩
    simp only [swimFuel, if_neg hp]
    by_cases hle : geti l (p + 1) ≤ geti l (parentIdx (p + 1))
    · rw [if_pos hle, if_pos hle]
    · rw [if_neg hle, if_neg hle]
      have hplt := parentIdx_lt (show 0 < p + 1 by omega)
      exact swimFuel_congr p (parentIdx (p + 1)) (parentIdx (p + 1)) _
        (by omega) (le_refl _)

theorem sinkFuel_congr : ∀ (f1 f2 pos e : Nat) (l : List α),
    e - pos ≤ f1 → e - pos ≤ f2 → sinkFuel l pos e f1 = sinkFuel l pos e f2 := by
  intro f1
  induction f1 with
  | zero =>
    intro f2 pos e l h1 h2
    have hnone : bestChild l pos e = none := bestChild_eq_none.mpr (by omega)
    cases f2 with
    | zero => rfl
    | succ f2 => simp [sinkFuel, hnone]
  | succ f1 ih =>
    intro f2 pos e l h1 h2
    cases hbc : bestChild l pos e with
    | none =>
      cases f2 with
      | zero => simp [sinkFuel, hbc]
      | succ f2 => simp [sinkFuel, hbc]
    | some child =>
      obtain ⟨hpc, hce⟩ := bestChild_lt hbc
      cases f2 with
      | zero => omega
      | succ f2 =>
        simp only [sinkFuel, hbc]
        by_cases hle : geti l child ≤ geti l pos
        · rw [if_pos hle, if_pos hle]
        · rw [if_neg hle, if_neg hle]
          exact ih f2 child e _ (by omega) (by omega)

/-- Function `sink_until` satisfies exactly the loop equation of the source's `while let`. -/
theorem sinkUntil_eq_loop (l : List α) (pos e : Nat) :
    sinkUntil l pos e =
      match bestChild l pos e with
      | none => l
      | some child =>
        if geti l child ≤ geti l pos then l
        else sinkUntil (swapIdx l pos child) child e := by
  unfold sinkUntil
  cases hbc : bestChild l pos e with
  | none =>
    cases e with
    | zero => rfl
    | succ e => simp [sinkFuel, hbc]
  | some child =>
    obtain ⟨hpc, hce⟩ := bestChild_lt hbc
    obtain ⟨e', rfl⟩ : ∃ e', e = e' + 1 := ⟨e - 1, by omega⟩
    simp only [sinkFuel, hbc]
    by_cases hle : geti l child ≤ geti l pos
    · rw [if_pos hle, if_pos hle]
    · rw [if_neg hle, if_neg hle]
      exact sinkFuel_congr e' (e' + 1) child (e' + 1) _ (by omega) (by omega)

/-! ### Shape preservation: length, permutation, untouched suffix -/

theorem length_swimFuel (l : List α) (pos fuel : Nat) :
    (swimFuel l pos fuel).length = l.length := by
  induction fuel generalizing l pos with
  | zero => rfl
  | succ fuel ih =>
    simp only [swimFuel]
    by_cases hp : pos = 0
    · rw [if_pos hp]
    · rw [if_neg hp]
      by_cases hle : geti l pos ≤ geti l (parentIdx pos)
      · rw [if_pos hle]
      · rw [if_neg hle, ih, length_swapIdx]

theorem length_swim (l : List α) (pos : Nat) : (swim l pos).length = l.length :=
  length_swimFuel l pos pos

theorem swimFuel_perm (l : List α) (pos fuel : Nat) (h : pos < l.length) :
    (swimFuel l pos fuel).Perm l := by
  induction fuel generalizing l pos with
  | zero => exact List.Perm.refl l
  | succ fuel ih =>
    simp only [swimFuel]
    by_cases hp : pos = 0
    · rw [if_pos hp]
    · rw [if_neg hp]
      by_cases hle : geti l pos ≤ geti l (parentIdx pos)
      · rw [if_pos hle]
      · rw [if_neg hle]
        have hplt := parentIdx_lt (show 0 < pos by omega)
        have hswap : (swapIdx l pos (parentIdx pos)).Perm l :=
          swapIdx_perm l h (by omega)
        exact List.Perm.trans
          (ih _ _ (by rw [length_swapIdx]; omega)) hswap

theorem swim_perm (l : List α) (pos : Nat) (h : pos < l.length) :
    (swim l pos).Perm l :=
  swimFuel_perm l pos pos h

theorem length_sinkFuel (l : List α) (pos e fuel : Nat) :
    (sinkFuel l pos e fuel).length = l.length := by
  induction fuel generalizing l pos with
  | zero => rfl
  | succ fuel ih =>
    cases hbc : bestChild l pos e with
    | none => simp [sinkFuel, hbc]
    | some child =>
      simp only [sinkFuel, hbc]
      by_cases hle : geti l child ≤ geti l pos
      · rw [if_pos hle]
      · rw [if_neg hle, ih, length_swapIdx]

theorem length_sinkUntil (l : List α) (pos e : Nat) :
    (sinkUntil l pos e).length = l.length :=
  length_sinkFuel l pos e e

theorem sinkFuel_perm (l : List α) (pos e fuel : Nat) (h : e ≤ l.length) :
    (sinkFuel l pos e fuel).Perm l := by
  induction fuel generalizing l pos with
  | zero => exact List.Perm.refl l
  | succ fuel ih =>
    cases hbc : bestChild l pos e with
    | none => simp [sinkFuel, hbc]
    | some child =>
      obtain ⟨hpc, hce⟩ := bestChild_lt hbc
      simp only [sinkFuel, hbc]
      by_cases hle : geti l child ≤ geti l pos
      · rw [if_pos hle]
      · rw [if_neg hle]
        have hswap : (swapIdx l pos child).Perm l :=
          swapIdx_perm l (by omega) (by omega)
        exact List.Perm.trans (ih _ _ (by rw [length_swapIdx]; omega)) hswap

theorem sinkUntil_perm (l : List α) (pos e : Nat) (h : e ≤ l.length) :
    (sinkUntil l pos e).Perm l :=
  sinkFuel_perm l pos e e h

/-- Function `sink_until` never touches positions at or beyond the active prefix `e`. -/
theorem sinkFuel_getElem?_of_le (l : List α) (pos e fuel : Nat)
    (h : e ≤ l.length) : ∀ i, e ≤ i → (sinkFuel l pos e fuel)[i]? = l[i]? := by
  induction fuel generalizing l pos with
  | zero => intro i _; rfl
  | succ fuel ih =>
    intro i hi
    cases hbc : bestChild l pos e with
    | none => simp [sinkFuel, hbc]
    | some child =>
      obtain ⟨hpc, hce⟩ := bestChild_lt hbc
      simp only [sinkFuel, hbc]
      by_cases hle : geti l child ≤ geti l pos
      · rw [if_pos hle]
      · rw [if_neg hle,
          ih (swapIdx l pos child) child (by rw [length_swapIdx]; omega) i hi,
          getElem?_swapIdx l pos child i (by omega) (by omega),
          if_neg (by omega), if_neg (by omega)]

theorem sinkUntil_getElem?_of_le (l : List α) (pos e : Nat)
    (h : e ≤ l.length) : ∀ i, e ≤ i → (sinkUntil l pos e)[i]? = l[i]? :=
  sinkFuel_getElem?_of_le l pos e e h

/-! ### Swim restores the invariant -/

/-- Loop invariant of `swim`: if every non-root position except `p` is
below its parent, and every child of `p` is already below `p`'s parent,
then swimming from `p` yields the heap property on the prefix `[0, n)`. -/
theorem swimFuel_restore (fuel : Nat) :
    ∀ (l : List α) (n p : Nat), p ≤ fuel → n ≤ l.length → p < n →
      (∀ c, 0 < c → c < n → c ≠ p → geti l c ≤ geti l (parentIdx c)) →
      (0 < p → ∀ c, c < n → parentIdx c = p → geti l c ≤ geti l (parentIdx p)) →
      heapUpTo (swimFuel l p fuel) n := by
  induction fuel with
  | zero =>
    intro l n p hpf hn hpn hex _
    obtain rfl : p = 0 := by omega
    intro c hc hc0
    exact hex c hc0 hc (by omega)
  | succ fuel ih =>
    intro l n p _ hn hpn hex hgp
    by_cases hp : p = 0
    · subst hp
      simp only [swimFuel, if_pos rfl]
      intro c hc hc0
      exact hex c hc0 hc (by omega)
    · simp only [swimFuel, if_neg hp]
      by_cases hle : geti l p ≤ geti l (parentIdx p)
      · rw [if_pos hle]
        intro c hc hc0
        by_cases hcp : c = p
        · subst hcp
          exact hle
        · exact hex c hc0 hc hcp
      · rw [if_neg hle]
        have hp0 : 0 < p := by omega
        have hqlt : parentIdx p < p := parentIdx_lt hp0
        have hpl : p < l.length := by omega
        have hql : parentIdx p < l.length := by omega
        have hlt : geti l (parentIdx p) < geti l p := lt_of_not_le hle
        have hfst : geti (swapIdx l p (parentIdx p)) (parentIdx p) = geti l p :=
          geti_swapIdx_fst l hpl hql
        have hsnd : geti (swapIdx l p (parentIdx p)) p = geti l (parentIdx p) :=
          geti_swapIdx_snd l hpl hql
        have hne : ∀ k, k ≠ p → k ≠ parentIdx p →
            geti (swapIdx l p (parentIdx p)) k = geti l k :=
          fun k h1 h2 => geti_swapIdx_ne l hpl hql h1 h2
        apply ih (swapIdx l p (parentIdx p)) n (parentIdx p) (by omega)
          (by rw [length_swapIdx]; omega) (by omega)
        · -- every non-root position except the new exception `parentIdx p`
          -- is still below its parent
          intro c hc0 hcn hcq
          by_cases hcp : c = p
          · subst hcp
            rw [hsnd, hfst]
            exact le_of_lt hlt
          · rw [hne c hcp hcq]
            by_cases hpar_q : parentIdx c = parentIdx p
            · rw [hpar_q, hfst]
              exact le_of_lt (lt_of_le_of_lt (hpar_q ▸ hex c hc0 hcn hcp) hlt)
            · by_cases hpar_p : parentIdx c = p
              · rw [hpar_p, hsnd]
                exact hgp hp0 c hcn hpar_p
              · rw [hne (parentIdx c) hpar_p hpar_q]
                exact hex c hc0 hcn hcp
        · -- children of the new exception stay below its parent
          intro hq0 c hcn hpar
          have hqq : parentIdx (parentIdx p) ≠ p := by
            have := parentIdx_lt hq0
            omega
          have hqq' : parentIdx (parentIdx p) ≠ parentIdx p := by
            have := parentIdx_lt hq0
            omega
          rw [hne (parentIdx (parentIdx p)) hqq hqq']
          have hedge_q : geti l (parentIdx p) ≤ geti l (parentIdx (parentIdx p)) :=
            hex (parentIdx p) hq0 (by omega) (by omega)
          by_cases hcp : c = p
          · subst hcp
            rw [hsnd]
            exact hedge_q
          · have hcq : c ≠ parentIdx p := by
              intro heq
              subst heq
              exact absurd hpar (by have := parentIdx_lt hq0; omega)
            have hc0 : 0 < c := by
              rcases Nat.eq_zero_or_pos c with rfl | hpos
              · rw [parentIdx_zero] at hpar
                omega
              · exact hpos
            rw [hne c hcp hcq]
            exact le_trans (hpar ▸ hex c hc0 hcn hcp) hedge_q

theorem swim_restore (l : List α) (n p : Nat) (hn : n ≤ l.length) (hpn : p < n)
    (hex : ∀ c, 0 < c → c < n → c ≠ p → geti l c ≤ geti l (parentIdx c))
    (hgp : 0 < p → ∀ c, c < n → parentIdx c = p → geti l c ≤ geti l (parentIdx p)) :
    heapUpTo (swim l p) n :=
  swimFuel_restore p l n p (le_refl p) hn hpn hex hgp

theorem geti_append_lt (l l2 : List α) {i : Nat} (h : i < l.length) :
    geti (l ++ l2) i = geti l i := by
  rw [geti, geti, List.getD_eq_getElem?_getD, List.getD_eq_getElem?_getD,
    List.getElem?_append, if_pos h]

theorem geti_append_self (l : List α) (a : α) :
    geti (l ++ [a]) l.length = a := by
  rw [geti, List.getD_eq_getElem?_getD,
    List.getElem?_append_right (le_refl _), Nat.sub_self]
  rfl

/-- Operation `push` preserves the max-heap invariant. -/
theorem pushHeap_inv (l : List α) (a : α) (h : heapInv l) :
    heapInv (pushHeap l a) := by
  unfold heapInv pushHeap
  rw [length_swim, List.length_append, List.length_singleton]
  apply swim_restore (l ++ [a]) (l.length + 1) l.length
    (by rw [List.length_append, List.length_singleton]) (by omega)
  · intro c hc0 hcn hcp
    have hcl : c < l.length := by omega
    rw [geti_append_lt l [a] hcl,
      geti_append_lt l [a] (lt_of_le_of_lt (Nat.le_of_lt (parentIdx_lt hc0)) hcl)]
    exact h c hcl hc0
  · intro hp0 c hcn hpar
    exfalso
    rcases Nat.eq_zero_or_pos c with rfl | hc0
    · rw [parentIdx_zero] at hpar
      omega
    · have := parentIdx_lt hc0
      omega

/-! ### Sink restores the invariant -/

/-- The heap property restricted to edges whose parent is `≥ k`. -/
def heapFromK (l : List α) (e k : Nat) : Prop :=
  ∀ q c, k ≤ q → isChildOf q c → c < e → geti l c ≤ geti l q

theorem heapFromK_zero_iff (l : List α) (e : Nat) :
    heapFromK l e 0 ↔ heapUpTo l e := by
  constructor
  · intro h c hc hc0
    exact h (parentIdx c) c (Nat.zero_le _) (parentIdx_isChildOf hc0) hc
  · intro h q c _ hqc hce
    obtain ⟨hpar, hlt⟩ := isChildOf_parentIdx hqc
    have := h c hce (by omega)
    rwa [hpar] at this

/-- Loop invariant of `sink_until`: if every in-range edge whose parent is
`≥ k` holds except those out of `p`, and the children of `p` are below
`p`'s parent (when that parent is itself `≥ k`), sinking from `p` makes
every in-range edge with parent `≥ k` hold. -/
theorem sinkFuel_restore (fuel : Nat) :
    ∀ (l : List α) (e k p : Nat), e - p ≤ fuel → e ≤ l.length → k ≤ p →
      (∀ q c, k ≤ q → isChildOf q c → c < e → q ≠ p → geti l c ≤ geti l q) →
      (0 < p → k ≤ parentIdx p →
        ∀ c, isChildOf p c → c < e → geti l c ≤ geti l (parentIdx p)) →
      heapFromK (sinkFuel l p e fuel) e k := by
  induction fuel with
  | zero =>
    intro l e k p hf he hkp hex _
    intro q c hkq hqc hce
    by_cases hqp : q = p
    · subst hqp
      obtain ⟨_, hlt⟩ := isChildOf_parentIdx hqc
      rcases hqc with h' | h' | h' <;> omega
    · exact hex q c hkq hqc hce hqp
  | succ fuel ih =>
    intro l e k p hf he hkp hex hpar
    cases hbc : bestChild l p e with
    | none =>
      simp only [sinkFuel, hbc]
      have hnone : e ≤ 3 * p + 1 := bestChild_eq_none.mp hbc
      intro q c hkq hqc hce
      by_cases hqp : q = p
      · subst hqp
        rcases hqc with h' | h' | h' <;> omega
      · exact hex q c hkq hqc hce hqp
    | some b =>
      obtain ⟨hpb, hbe⟩ := bestChild_lt hbc
      obtain ⟨⟨hchb, _⟩, hmax⟩ := bestChild_some hbc
      simp only [sinkFuel, hbc]
      by_cases hle : geti l b ≤ geti l p
      · rw [if_pos hle]
        intro q c hkq hqc hce
        by_cases hqp : q = p
        · subst hqp
          exact le_trans (hmax c hqc hce) hle
        · exact hex q c hkq hqc hce hqp
      · rw [if_neg hle]
        have hlt : geti l p < geti l b := lt_of_not_le hle
        have hpl : p < l.length := by omega
        have hbl : b < l.length := by omega
        have hfst : geti (swapIdx l p b) b = geti l p := geti_swapIdx_fst l hpl hbl
        have hsnd : geti (swapIdx l p b) p = geti l b := geti_swapIdx_snd l hpl hbl
        have hne : ∀ j, j ≠ p → j ≠ b → geti (swapIdx l p b) j = geti l j :=
          fun j h1 h2 => geti_swapIdx_ne l hpl hbl h1 h2
        have hparb : parentIdx b = p := (isChildOf_parentIdx hchb).1
        apply ih (swapIdx l p b) e k b (by omega)
          (by rw [length_swapIdx]; omega) (by omega)
        · intro q c hkq hqc hce hqb
          obtain ⟨hq_eq, hqclt⟩ := isChildOf_parentIdx hqc
          by_cases hqp : q = p
          · subst hqp
            by_cases hcb : c = b
            · subst hcb
              rw [hfst, hsnd]
              exact le_of_lt hlt
            · have hcp : c ≠ q := by omega
              rw [hne c hcp hcb, hsnd]
              exact hmax c hqc hce
          · rw [hne q hqp hqb]
            by_cases hcp : c = p
            · subst hcp
              rw [hsnd]
              have hq_is_par : q = parentIdx c := hq_eq.symm
              have hc0 : 0 < c := by omega
              exact hq_is_par ▸ hpar hc0 (by omega) b hchb hbe
            · have hcb : c ≠ b := by
                intro hcb
                subst hcb
                exact hqp (hq_eq ▸ hparb.symm ▸ rfl)
              rw [hne c hcp hcb]
              exact hex q c hkq hqc hce hqp
        · intro hb0 hkpb c hqc hce
          rw [hparb]
          have hcb : c ≠ b := by
            obtain ⟨_, hlt'⟩ := isChildOf_parentIdx hqc
            omega
          have hcp : c ≠ p := by
            obtain ⟨_, hlt'⟩ := isChildOf_parentIdx hqc
            omega
          rw [hne c hcp hcb, hsnd]
          exact hex b c (by omega) hqc hce (by omega)

theorem sinkUntil_restore (l : List α) (e k p : Nat)
    (he : e ≤ l.length) (hkp : k ≤ p)
    (hex : ∀ q c, k ≤ q → isChildOf q c → c < e → q ≠ p → geti l c ≤ geti l q)
    (hpar : 0 < p → k ≤ parentIdx p →
      ∀ c, isChildOf p c → c < e → geti l c ≤ geti l (parentIdx p)) :
    heapFromK (sinkUntil l p e) e k :=
  sinkFuel_restore e l e k p (by omega) he hkp hex hpar

/-! ### Correctness of `pop` -/

/-- In a max-heap the root holds a maximal value. -/
theorem root_max (l : List α) (hinv : heapInv l) :
    ∀ i, i < l.length → geti l i ≤ geti l 0 := by
  intro i
  induction i using Nat.strong_induction_on with
  | _ i ihs =>
    intro hi
    rcases Nat.eq_zero_or_pos i with rfl | hi0
    · exact le_refl _
    · have hp := parentIdx_lt hi0
      exact le_trans (hinv i hi hi0) (ihs (parentIdx i) hp (by omega))

theorem popHeap_empty : popHeap ([] : List α) = (none, []) := rfl

theorem heapInv_nil : heapInv ([] : List α) := by
  intro c hc _
  exact absurd hc (Nat.not_lt_zero c)

theorem geti_take (l : List α) {n i : Nat} (h : i < n) :
    geti (l.take n) i = geti l i := by
  rw [geti, geti, List.getD_eq_getElem?_getD, List.getD_eq_getElem?_getD,
    List.getElem?_take, if_pos h]

/-- After `swap(0, last)` and `sink_until(0, last)`, position `last`
still holds the old root. -/
theorem sink_getLast? (l : List α) (hne : l ≠ []) :
    (sinkUntil (swapIdx l 0 (l.length - 1)) 0 (l.length - 1)).getLast? =
      some (geti l 0) := by
  have hlen : 0 < l.length := List.length_pos.mpr hne
  have hswl : (swapIdx l 0 (l.length - 1)).length = l.length := length_swapIdx l 0 _
  have hlsl : (sinkUntil (swapIdx l 0 (l.length - 1)) 0 (l.length - 1)).length
      = l.length := by
    rw [length_sinkUntil, hswl]
  rw [List.getLast?_eq_getElem?, hlsl,
    sinkUntil_getElem?_of_le _ 0 (l.length - 1) (by omega) _ (le_refl _),
    getElem?_swapIdx l 0 (l.length - 1) (l.length - 1) hlen (by omega), if_pos rfl]

theorem popHeap_eq (l : List α) (hne : l ≠ []) :
    popHeap l = (some (geti l 0),
      (sinkUntil (swapIdx l 0 (l.length - 1)) 0 (l.length - 1)).dropLast) := by
  have hempty : ¬(l.isEmpty = true) := by
    rw [List.isEmpty_iff]
    exact hne
  unfold popHeap
  simp only [if_neg hempty]
  rw [sink_getLast? l hne]

/-- Operation `pop` preserves the max-heap invariant. -/
theorem popHeap_inv (l : List α) (hinv : heapInv l) : heapInv (popHeap l).2 := by
  rcases eq_or_ne l [] with rfl | hne
  · exact heapInv_nil
  · have hlen : 0 < l.length := List.length_pos.mpr hne
    rw [popHeap_eq l hne]
    have hswl : (swapIdx l 0 (l.length - 1)).length = l.length := length_swapIdx l 0 _
    have hheap : heapUpTo
        (sinkUntil (swapIdx l 0 (l.length - 1)) 0 (l.length - 1)) (l.length - 1) := by
      apply (heapFromK_zero_iff _ _).mp
      apply sinkUntil_restore _ (l.length - 1) 0 0 (by omega) (le_refl 0)
      · intro q c hkq hqc hce hq0
        obtain ⟨hq_eq, hqc_lt⟩ := isChildOf_parentIdx hqc
        have hq1 : 0 < q := by omega
        have hc1 : 0 < c := by omega
        rw [geti_swapIdx_ne l hlen (by omega) (by omega) (by omega),
          geti_swapIdx_ne l hlen (by omega) (by omega) (by omega)]
        have := hinv c (by omega) hc1
        rwa [hq_eq] at this
      · intro h0 _
        exact absurd h0 (by omega)
    unfold heapInv
    intro c hc hc0
    rw [List.length_dropLast, length_sinkUntil, hswl] at hc
    rw [List.dropLast_eq_take, geti_take _ (by rw [length_sinkUntil, hswl]; omega),
      geti_take _ (by rw [length_sinkUntil, hswl]
                      have := parentIdx_lt hc0
                      omega)]
    exact hheap c hc hc0

/-- Operation `pop` removes exactly one occurrence: the returned maximum prepended
to the new state is a permutation of the old state. -/
theorem popHeap_perm (l : List α) (hne : l ≠ []) :
    (geti l 0 :: (popHeap l).2).Perm l := by
  have hlen : 0 < l.length := List.length_pos.mpr hne
  have hswl : (swapIdx l 0 (l.length - 1)).length = l.length := length_swapIdx l 0 _
  rw [popHeap_eq l hne]
  have hlsne : (sinkUntil (swapIdx l 0 (l.length - 1)) 0 (l.length - 1)) ≠ [] := by
    apply List.ne_nil_of_length_pos
    rw [length_sinkUntil, hswl]
    omega
  have hlast : (sinkUntil (swapIdx l 0 (l.length - 1)) 0 (l.length - 1)).getLast hlsne
      = geti l 0 := by
    have h1 := List.getLast?_eq_getLast _ hlsne
    rw [sink_getLast? l hne] at h1
    exact (Option.some.inj h1).symm
  have hsplit := List.dropLast_append_getLast hlsne
  rw [hlast] at hsplit
  have hperm0 : (geti l 0 ::
      (sinkUntil (swapIdx l 0 (l.length - 1)) 0 (l.length - 1)).dropLast).Perm
      ((sinkUntil (swapIdx l 0 (l.length - 1)) 0 (l.length - 1)).dropLast
        ++ [geti l 0]) :=
    (List.perm_append_singleton _ _).symm
  have hperm1 : (geti l 0 ::
      (sinkUntil (swapIdx l 0 (l.length - 1)) 0 (l.length - 1)).dropLast).Perm
      (sinkUntil (swapIdx l 0 (l.length - 1)) 0 (l.length - 1)) := by
    refine hperm0.trans ?_
    rw [hsplit]
  show (geti l 0 ::
      (sinkUntil (swapIdx l 0 (l.length - 1)) 0 (l.length - 1)).dropLast).Perm l
  exact hperm1.trans ((sinkUntil_perm _ 0 (l.length - 1) (by omega)).trans
    (swapIdx_perm l hlen (by omega)))

/-- Every element remaining after `pop` is `≤` the popped value. -/
theorem popHeap_max (l : List α) (hinv : heapInv l) (hne : l ≠ []) :
    ∀ y ∈ (popHeap l).2, y ≤ geti l 0 := by
  intro y hy
  have hmem : y ∈ l := (popHeap_perm l hne).mem_iff.mp (List.mem_cons_of_mem _ hy)
  obtain ⟨i, hi, rfl⟩ := List.mem_iff_getElem.mp hmem
  rw [← geti_eq_getElem l hi]
  exact root_max l hinv i hi

theorem popHeap_length (l : List α) (hne : l ≠ []) :
    (popHeap l).2.length = l.length - 1 := by
  rw [popHeap_eq l hne]
  rw [List.length_dropLast, length_sinkUntil, length_swapIdx]

/-! ### Correctness of bulk heapify (`From<Vec<T>>`) -/

/-- Sinking position `k` extends the partial heap property from parents
`≥ k + 1` to parents `≥ k`. -/
theorem sinkH_step (l : List α) (k : Nat) (h : heapFromK l l.length (k + 1)) :
    heapFromK (sinkH l k) l.length k := by
  apply sinkUntil_restore l l.length k k (le_refl _) (le_refl _)
  · intro q c hkq hqc hce hqk
    exact h q c (by omega) hqc hce
  · intro h0 hple
    exfalso
    have := parentIdx_lt h0
    omega

theorem length_sinkH (l : List α) (k : Nat) : (sinkH l k).length = l.length := by
  rw [sinkH, length_sinkUntil]

theorem sinkRange_inv (k : Nat) :
    ∀ l : List α, heapFromK l l.length (k + 1) → heapInv (sinkRange l k) := by
  induction k with
  | zero =>
    intro l h
    show heapInv (sinkH l 0)
    unfold heapInv
    rw [length_sinkH]
    exact (heapFromK_zero_iff _ _).mp (sinkH_step l 0 h)
  | succ k ih =>
    intro l h
    show heapInv (sinkRange (sinkH l (k + 1)) k)
    apply ih
    rw [length_sinkH]
    exact sinkH_step l (k + 1) h

theorem sinkRange_perm (k : Nat) : ∀ l : List α, (sinkRange l k).Perm l := by
  induction k with
  | zero =>
    intro l
    exact sinkUntil_perm l 0 l.length (le_refl _)
  | succ k ih =>
    intro l
    exact (ih (sinkH l (k + 1))).trans (sinkUntil_perm l (k + 1) l.length (le_refl _))

/-- Above the last parent, the partial heap property holds vacuously:
those positions have no children inside the array. -/
theorem heapFromK_init (l : List α) (hne : l ≠ []) :
    heapFromK l l.length (parentIdx (l.length - 1) + 1) := by
  intro q c hkq hqc hce
  exfalso
  have hlen : 0 < l.length := List.length_pos.mpr hne
  have hc3 : 3 * q + 1 ≤ c := by
    rcases hqc with h | h | h <;> omega
  unfold parentIdx at hkq
  by_cases hl1 : l.length - 1 = 0
  · rw [if_pos hl1] at hkq
    omega
  · rw [if_neg hl1] at hkq
    omega

/-- A successful bulk construction satisfies the max-heap invariant. -/
theorem fromVec_inv (v h : List α) (hfv : fromVec v = some h) : heapInv h := by
  unfold fromVec at hfv
  by_cases hz : v.length = 0
  · rw [if_pos hz] at hfv
    exact absurd hfv (by simp)
  · rw [if_neg hz] at hfv
    obtain rfl : sinkRange v (parentIdx (v.length - 1)) = h := Option.some.inj hfv
    apply sinkRange_inv
    exact heapFromK_init v (fun h' => hz (by rw [h']; rfl))

theorem fromVec_perm (v h : List α) (hfv : fromVec v = some h) : h.Perm v := by
  unfold fromVec at hfv
  by_cases hz : v.length = 0
  · rw [if_pos hz] at hfv
    exact absurd hfv (by simp)
  · rw [if_neg hz] at hfv
    obtain rfl : sinkRange v (parentIdx (v.length - 1)) = h := Option.some.inj hfv
    exact sinkRange_perm _ v

/-! ### Correctness of `push` folds and of draining -/

theorem pushHeap_perm (l : List α) (a : α) : (pushHeap l a).Perm (a :: l) := by
  refine List.Perm.trans ?_ (List.perm_append_singleton a l)
  apply swim_perm
  rw [List.length_append, List.length_singleton]
  omega

theorem length_pushHeap (l : List α) (a : α) :
    (pushHeap l a).length = l.length + 1 := by
  rw [pushHeap, length_swim, List.length_append, List.length_singleton]

theorem foldl_pushHeap_inv (v : List α) :
    ∀ l : List α, heapInv l → heapInv (v.foldl pushHeap l) := by
  induction v with
  | nil => intro l h; exact h
  | cons a v ih =>
    intro l h
    exact ih (pushHeap l a) (pushHeap_inv l a h)

theorem foldl_pushHeap_perm (v : List α) :
    ∀ l : List α, (v.foldl pushHeap l).Perm (l ++ v) := by
  induction v with
  | nil =>
    intro l
    rw [List.append_nil]
    exact List.Perm.refl l
  | cons a v ih =>
    intro l
    refine ((ih (pushHeap l a)).trans ?_).trans List.perm_middle.symm
    show ((pushHeap l a) ++ v).Perm (a :: (l ++ v))
    exact (pushHeap_perm l a).append_right v

theorem drainFuel_spec (fuel : Nat) :
    ∀ l : List α, l.length ≤ fuel → heapInv l →
      (drainFuel l fuel).Perm l ∧ List.Sorted (· ≥ ·) (drainFuel l fuel) := by
  induction fuel with
  | zero =>
    intro l h _
    obtain rfl : l = [] := List.eq_nil_of_length_eq_zero (by omega)
    exact ⟨List.Perm.refl _, List.sorted_nil⟩
  | succ fuel ih =>
    intro l hlen hinv
    rcases eq_or_ne l [] with rfl | hne
    · simp only [drainFuel, popHeap_empty]
      exact ⟨List.Perm.refl _, List.sorted_nil⟩
    · have hpop := popHeap_eq l hne
      have hstep : drainFuel l (fuel + 1) = geti l 0 :: drainFuel (popHeap l).2 fuel := by
        simp only [drainFuel, hpop]
      rw [hstep]
      have hinv2 : heapInv (popHeap l).2 := popHeap_inv l hinv
      have hlen2 : (popHeap l).2.length ≤ fuel := by
        rw [popHeap_length l hne]
        have : 0 < l.length := List.length_pos.mpr hne
        omega
      obtain ⟨ihperm, ihsorted⟩ := ih _ hlen2 hinv2
      constructor
      · exact (ihperm.cons (geti l 0)).trans (popHeap_perm l hne)
      · rw [List.sorted_cons]
        refine ⟨?_, ihsorted⟩
        intro b hb
        exact popHeap_max l hinv hne b (ihperm.mem_iff.mp hb)

theorem drain_spec (l : List α) (hinv : heapInv l) :
    (drain l).Perm l ∧ List.Sorted (· ≥ ·) (drain l) :=
  drainFuel_spec l.length l (le_refl _) hinv

/-- Draining is determined by the multiset: two invariant-satisfying heaps
holding the same elements drain to the same (non-increasing) sequence. -/
theorem drain_eq_of_perm (l1 l2 : List α) (h1 : heapInv l1) (h2 : heapInv l2)
    (hp : l1.Perm l2) : drain l1 = drain l2 := by
  obtain ⟨p1, s1⟩ := drain_spec l1 h1
  obtain ⟨p2, s2⟩ := drain_spec l2 h2
  haveI : IsAntisymm α (· ≥ ·) := ⟨fun a b x y => le_antisymm y x⟩
  exact List.eq_of_perm_of_sorted (p1.trans (hp.trans p2.symm)) s1 s2

/-! ### The claims -/

/-- C1: the claim says constructing from the empty sequence yields an
empty heap directly (afterwards `is_empty()` is true and `pop()` returns
absence) with no fault, in particular no underflow from `parent(len - 1)`.
The code violates this: `From<Vec<T>>` computes `heap.len() - 1` with no
guard, and on the empty vector the `usize` subtraction underflows — the
fault the claim forbids, modelled by `fromVec` returning `none`.  (The
empty heap itself behaves as claimed: `is_empty()` is true and `pop()`
returns absence without mutating.)  The spec flags this exact unguarded
computation as a defect of the code, so the claim is right and the code
is wrong. -/
theorem C1_from_empty_faults :
    fromVec ([] : List Int) = none ∧
      isEmptyH ([] : List Int) = true ∧
      popHeap ([] : List Int) = (none, []) := by
  refine ⟨rfl, rfl, rfl⟩

/-- C2: on any heap satisfying the max-heap invariant, `pop` returns
`none` and leaves the state unchanged when the heap is empty; otherwise
it returns `some x` where `x` is `≥` every element remaining, and the
new state together with `x` is a permutation of the old state (exactly
one occurrence removed). -/
theorem C2_pop_correct (l : List α) (hinv : heapInv l) :
    (l = [] → popHeap l = (none, l)) ∧
      (l ≠ [] → ∃ x l2, popHeap l = (some x, l2) ∧
        (∀ y ∈ l2, y ≤ x) ∧ (x :: l2).Perm l) := by
  constructor
  · rintro rfl
    rfl
  · intro hne
    refine ⟨geti l 0, (popHeap l).2, ?_, popHeap_max l hinv hne, popHeap_perm l hne⟩
    rw [popHeap_eq l hne]

theorem C2_pop_correct_witness :
    ((([3, 1, 2] : List Int) = [] →
        popHeap ([3, 1, 2] : List Int) = (none, [3, 1, 2])) ∧
      (([3, 1, 2] : List Int) ≠ [] →
        ∃ x l2, popHeap ([3, 1, 2] : List Int) = (some x, l2) ∧
          (∀ y ∈ l2, y ≤ x) ∧ (x :: l2).Perm [3, 1, 2])) :=
  C2_pop_correct [3, 1, 2] (by decide)

/-- C3: every state reachable by the public API (`new`/`with_capacity`,
successful bulk construction, `push`, `pop`) satisfies the max-heap
invariant: for every index `i` and every child index
`c ∈ \x7b3i+1, 3i+2, 3i+3\x7d` with `c < len`, `data[i] ≥ data[c]`. -/
theorem C3_reachable_inv (l : List α) (h : Reachable l) :
    ∀ i c, c < l.length → (c = 3 * i + 1 ∨ c = 3 * i + 2 ∨ c = 3 * i + 3) →
      geti l c ≤ geti l i := by
  have hinv : heapInv l := by
    induction h with
    | new => exact heapInv_nil
    | fromVec v hp hfv => exact fromVec_inv v hp hfv
    | push l a _ ih => exact pushHeap_inv l a ih
    | pop l _ ih => exact popHeap_inv l ih
  intro i c hc hch
  exact ((heapFromK_zero_iff l l.length).mpr hinv) i c (Nat.zero_le i) hch hc

theorem C3_reachable_inv_witness :
    geti (pushHeap (pushHeap ([] : List Int) 5) 3) 1 ≤
      geti (pushHeap (pushHeap ([] : List Int) 5) 3) 0 :=
  C3_reachable_inv _ (Reachable.push _ 3 (Reachable.push _ 5 Reachable.new))
    0 1 (by decide) (by decide)

/-- C4: `is_empty()` is true exactly when `len() == 0`, and popping an
empty heap returns absence with the state unchanged — hence repeating it
any number of times never mutates the state. -/
theorem C4_empty_idempotent (l : List α) :
    (isEmptyH l = true ↔ lenH l = 0) ∧
      (isEmptyH l = true → popHeap l = (none, l) ∧
        ∀ n : Nat, (fun s => (popHeap s).2)^[n] l = l) := by
  constructor
  · rw [isEmptyH, lenH, List.isEmpty_iff]
    exact List.length_eq_zero.symm
  · intro he
    obtain rfl : l = [] := List.isEmpty_iff.mp he
    refine ⟨rfl, ?_⟩
    intro n
    induction n with
    | zero => rfl
    | succ n ih =>
      rw [Function.iterate_succ_apply]
      exact ih

theorem C4_empty_idempotent_witness :
    (isEmptyH ([] : List Int) = true ↔ lenH ([] : List Int) = 0) ∧
      popHeap ([] : List Int) = (none, []) ∧
      (fun s => (popHeap s).2)^[3] ([] : List Int) = [] :=
  ⟨(C4_empty_idempotent ([] : List Int)).1,
    ((C4_empty_idempotent ([] : List Int)).2 (by decide)).1,
    ((C4_empty_idempotent ([] : List Int)).2 (by decide)).2 3⟩

/-- C5: `parent(0) = 0` and `parent(i) = (i - 1) / 3` for `i ≠ 0`;
`children(p, end)` is `none` exactly when `3p + 1 ≥ end`, and otherwise
its members are exactly the indices among `\x7b3p+1, 3p+2, 3p+3\x7d` that
are `< end`. -/
theorem C5_index_arithmetic :
    parentIdx 0 = 0 ∧ (∀ i : Nat, parentIdx (i + 1) = (i + 1 - 1) / 3) ∧
      ∀ p e : Nat, (childrenIdx p e = none ↔ 3 * p + 1 ≥ e) ∧
        ∀ c : Nat, (∃ js, childrenIdx p e = some js ∧ c ∈ js) ↔
          ((c = 3 * p + 1 ∨ c = 3 * p + 2 ∨ c = 3 * p + 3) ∧ c < e) := by
  refine ⟨rfl, ?_, ?_⟩
  · intro i
    unfold parentIdx
    rw [if_neg (by omega)]
  · intro p e
    refine ⟨childrenIdx_eq_none, ?_⟩
    intro c
    constructor
    · rintro ⟨js, hjs, hc⟩
      exact (mem_childrenIdx hjs).mp hc
    · rintro ⟨hch, hce⟩
      cases hjs : childrenIdx p e with
      | none =>
        exfalso
        have := childrenIdx_eq_none.mp hjs
        rcases hch with h' | h' | h' <;> omega
      | some js =>
        exact ⟨js, rfl, (mem_childrenIdx hjs).mpr ⟨hch, hce⟩⟩

/-- C6: `push` appends the item at position `len` (the length before the
append) and then swims that position: while the position is non-root and
its value is strictly greater than the parent's, swap with the parent and
continue there, else stop.  Stated as: `push` is append-then-swim, the
appended item sits at index `len`, the length grows by one, and `swim`
satisfies exactly that loop equation. -/
theorem C6_push_swim (l : List α) (a : α) :
    pushHeap l a = swim (l ++ [a]) l.length ∧
      geti (l ++ [a]) l.length = a ∧
      (pushHeap l a).length = l.length + 1 ∧
      ∀ (l2 : List α) (pos : Nat),
        swim l2 pos =
          if pos = 0 then l2
          else if geti l2 pos ≤ geti l2 (parentIdx pos) then l2
          else swim (swapIdx l2 pos (parentIdx pos)) (parentIdx pos) :=
  ⟨rfl, geti_append_self l a, length_pushHeap l a,
    fun l2 pos => swim_eq_loop l2 pos⟩

/-- C7: `sink_until` repeatedly selects, via `best_child`, a child of the
current position inside the active prefix holding a maximal value among
the (up to three) children; it stops when no child exists (`best_child`
is `none` exactly when `3·pos + 1 ≥ end`) or when the current value is
already `≥` that best child's value, else swaps down and continues from
the child. -/
theorem C7_sink_until (l : List α) (pos e : Nat) :
    (sinkUntil l pos e =
      match bestChild l pos e with
      | none => l
      | some child =>
        if geti l child ≤ geti l pos then l
        else sinkUntil (swapIdx l pos child) child e) ∧
      (bestChild l pos e = none ↔ e ≤ 3 * pos + 1) ∧
      ∀ c, bestChild l pos e = some c →
        isChildOf pos c ∧ c < e ∧
          ∀ j, isChildOf pos j → j < e → geti l j ≤ geti l c := by
  refine ⟨sinkUntil_eq_loop l pos e, bestChild_eq_none, ?_⟩
  intro c h
  obtain ⟨⟨h1, h2⟩, h3⟩ := bestChild_some h
  exact ⟨h1, h2, h3⟩

theorem C7_sink_until_witness :
    isChildOf 0 2 ∧ 2 < 4 ∧
      geti ([5, 3, 4, 2] : List Int) 1 ≤ geti ([5, 3, 4, 2] : List Int) 2 := by
  obtain ⟨h1, h2, h3⟩ :=
    (C7_sink_until ([5, 3, 4, 2] : List Int) 0 4).2.2 2 (by decide)
  exact ⟨h1, h2, h3 1 (by decide) (by decide)⟩

/-- C8 as stated is false: for the empty sequence the bulk construction
faults (the `len - 1` underflow) instead of yielding the drain of the
push-built heap (which is the empty sequence, obtained without fault). -/
theorem C8_counterexample :
    ¬((fromVec ([] : List Int)).map drain =
        some (drain (([] : List Int).foldl pushHeap []))) := by
  intro h
  exact nomatch h

/-- C8 (amended to non-empty sequences, forced by the `len - 1` underflow
of the bulk construction on the empty sequence, see C1): for every
non-empty sequence, bulk construction succeeds and draining the resulting
heap yields exactly the same sequence as pushing the elements one by one
into an empty heap and draining. -/
theorem C8_bulk_heapify_equiv (v : List α) (hne : v ≠ []) :
    ∃ h, fromVec v = some h ∧ drain h = drain (v.foldl pushHeap []) := by
  have hz : ¬v.length = 0 := fun h => hne (List.eq_nil_of_length_eq_zero h)
  have hfv : fromVec v = some (sinkRange v (parentIdx (v.length - 1))) := by
    unfold fromVec
    rw [if_neg hz]
  refine ⟨sinkRange v (parentIdx (v.length - 1)), hfv, ?_⟩
  apply drain_eq_of_perm
  · exact fromVec_inv v _ hfv
  · exact foldl_pushHeap_inv v [] heapInv_nil
  · exact (fromVec_perm v _ hfv).trans (foldl_pushHeap_perm v []).symm

theorem C8_bulk_heapify_equiv_witness :
    ∃ h, fromVec ([4, 1, 7, 3, 8, 2, 9, 0] : List Int) = some h ∧
      drain h = drain (([4, 1, 7, 3, 8, 2, 9, 0] : List Int).foldl pushHeap []) :=
  C8_bulk_heapify_equiv [4, 1, 7, 3, 8, 2, 9, 0] (by decide)

/-- C9: draining a heap built by pushing any finite sequence of elements
yields a non-increasing sequence containing exactly the pushed multiset,
each occurrence once; concretely, pushing 5, 3, 8, 1, 9, 2 then draining
yields 9, 8, 5, 3, 2, 1. -/
theorem C9_extraction_order (v : List α) :
    (drain (v.foldl pushHeap [])).Perm v ∧
      List.Sorted (· ≥ ·) (drain (v.foldl pushHeap [])) ∧
      drain (([5, 3, 8, 1, 9, 2] : List Int).foldl pushHeap []) =
        [9, 8, 5, 3, 2, 1] := by
  obtain ⟨hperm, hsorted⟩ :=
    drain_spec (v.foldl pushHeap []) (foldl_pushHeap_inv v [] heapInv_nil)
  exact ⟨hperm.trans (foldl_pushHeap_perm v []), hsorted, by decide⟩

/-- C10: the loop measures: for every position `pos > 0` the parent index
is strictly smaller (`swim` strictly descends), and every child returned
by `best_child(pos, end)` lies strictly between `pos` and `end`
(`sink_until` strictly ascends toward the bound).  These are precisely
the termination measures under which `push` and `pop` are defined as
total functions. -/
theorem C10_termination :
    (∀ pos : Nat, 0 < pos → parentIdx pos < pos) ∧
      ∀ (l : List α) (p e c : Nat), bestChild l p e = some c → p < c ∧ c < e :=
  ⟨fun _ h => parentIdx_lt h, fun _ _ _ _ h => bestChild_lt h⟩

theorem C10_termination_witness :
    parentIdx 1 < 1 ∧ (0 < 1 ∧ 1 < 2) :=
  ⟨(C10_termination (α := Int)).1 1 (by decide),
    (C10_termination (α := Int)).2 [3, 1] 0 2 1 (by decide)⟩

end TernaryHeap
